import Mathlib

/-!
Shallow embedding of `src/bin/UPCgen/macros/convert_UGHEPMC2LHE.cpp`:
a converter from the UPCGen HEPMC-style event listing to the LHE format.

Modelling conventions:
* C++ `double` momenta are modelled as exact rationals (`ℚ`); the claims are
  settled in exact arithmetic, playing the role of "within floating tolerance".
* Each raw input text line is represented by the `Line` inductive, one
  constructor per behavioural class of line under the stream extractions the
  C++ code performs (`istringstream >> ...`), with the same classification
  priority the code applies: a line containing the `END_EVENT_LISTING` marker
  is `endMarker`; a line starting with `"E "` is `eline` when the three
  integer fields extract successfully and `badE` otherwise; a line whose first
  token is `U` is `uline`; a line extracting all ten `P` fields with label `P`
  is `pline`; everything else is `junk`.
* `int` values are unbounded `Int` here; where the C++ code converts an `int`
  to `size_t` (the `parI != iPar+1` comparison and the loop bound `iPar <
  nPar`), the conversion is modelled exactly as reduction modulo 2^64.
* The ROOT vector classes are modelled by their exact-real semantics:
  `PxPyPzEVector` stores the four components; `PxPyPzMVector` stores
  (px,py,pz,M) with `M` carrying the sign of `E^2-P^2`, so after `SetXYZT`
  its `E()` is the absolute value of the `t` that was set.  Hence the
  accumulator `p4 += v` chains to `E_k = |E_(k-1) + e_k|`, and a
  `PxPyPzMVector(0,0,z,0)` converted to `PxPyPzEVector` has energy `|z|`.
* The ROOT invariant mass `M()` is `sign(E^2-P^2) * sqrt |E^2-P^2|`; since
  `sqrt` leaves ℚ we reason through the rational square `rootM2`, using that
  `M() = 0` iff `rootM2 = 0`.
-/

namespace UPC

/-- Exact model of `ROOT::Math::PxPyPzEVector`: the four stored components. -/
structure P4 where
  px : ℚ
  py : ℚ
  pz : ℚ
  e  : ℚ
deriving DecidableEq, Repr, Inhabited

/-- One entry of the C++ `parV` vector: the tuple
`(pdgId, status, mother index, 4-momentum)`. -/
structure Particle where
  pdgId : Int
  status : Int
  momI : Int
  mom : P4
deriving DecidableEq, Repr, Inhabited

/-- One raw input line, classified the way the C++ stream extractions
classify it (see the file comment). -/
inductive Line where
  /-- A line starting with `"E "` whose three integer fields extract:
  `E iEvt nVtx nPar`. -/
  | eline (iEvt nVtx nPar : Int) : Line
  /-- A line whose first whitespace token is `U` (trailing content ignored
  by the code). -/
  | uline : Line
  /-- A line extracting as `P parI momI pdgId px py pz en mass status`. -/
  | pline (parI momI pdgId : Int) (px py pz en mass : ℚ) (status : Int) : Line
  /-- A line containing the substring `END_EVENT_LISTING`. -/
  | endMarker : Line
  /-- A line starting with `"E "` that does not extract as an event header. -/
  | badE : Line
  /-- Any other line. -/
  | junk : Line
deriving DecidableEq, Repr, Inhabited

/-- The two `std::logic_error` messages the converter can throw from its
reading loop: `"Failed to parse event line: ..."` and
`"Failed to parse track line: ..."`. -/
inductive Err where
  | eventLine : Err
  | trackLine : Err
deriving DecidableEq, Repr, Inhabited

/-- Whether `line.rfind("E ", 0) == 0`, i.e. the line starts with `"E "`:
true exactly for well-formed event headers and for `badE` lines. -/
def startsWithESpace : Line → Bool
  | Line.eline _ _ _ => true
  | Line.badE => true
  | _ => false

/-- `std::get<1>(parV[momI-1]) = 2`: set the status of the entry at the given
position to 2 (`HAS_DAUGHTER`), leaving everything else unchanged.  Out of
range, the list is unchanged (the C++ code never indexes out of range here,
as proved below by the shape of `pushPart`). -/
def setStatus2 : List Particle → Nat → List Particle
  | [], _ => []
  | p :: ps, 0 => { p with status := 2 } :: ps
  | p :: ps, n + 1 => p :: setStatus2 ps n

/-- The body of the particle-reading loop, after the validity check passed:
`parV[iPar] = {pdgId, 1, momI, p4}; if (momI > 0) std::get<1>(parV[momI-1]) = 2;`
with the vector-by-index assignment rendered as appending (entries are
assigned strictly in index order, and promotions only ever touch strictly
earlier entries since `momI < parI`). -/
def pushPart (cur : List Particle) (momI pdgId : Int) (mom : P4) : List Particle :=
  let cur1 := cur ++ [⟨pdgId, 1, momI, mom⟩]
  if 0 < momI then setStatus2 cur1 (momI - 1).toNat else cur1

/-- Validity check and state update for one `P` line:
`parI != iPar+1 || momI >= parI` throws (the first comparison is between
`int parI` converted to `size_t` and the `size_t` counter, hence the
reduction modulo 2^64); otherwise the particle is stored and the mother
promoted.  `cur.length` is the current `iPar`. -/
def stepP (cur : List Particle) (parI momI pdgId : Int) (mom : P4) :
    Option (List Particle) :=
  if parI % (2 ^ 64 : Int) = (cur.length : Int) + 1 ∧ momI < parI then
    some (pushPart cur momI pdgId mom)
  else
    none

/-- `parV` entries whose status is still 1 (`FINAL`, never promoted). -/
def finalsOf (l : List Particle) : List Particle :=
  l.filter (fun p => p.status == 1)

/-- `p4.X()` after the conservation loop: plain sum of the px components of
the FINAL entries (`PxPyPzM4D` stores x directly). -/
def sumPx (l : List Particle) : ℚ :=
  (finalsOf l).foldl (fun a p => a + p.mom.px) 0

/-- `p4.Y()` after the conservation loop: plain sum of the py components. -/
def sumPy (l : List Particle) : ℚ :=
  (finalsOf l).foldl (fun a p => a + p.mom.py) 0

/-- `p4.Z()` after the conservation loop: plain sum of the pz components. -/
def sumPz (l : List Particle) : ℚ :=
  (finalsOf l).foldl (fun a p => a + p.mom.pz) 0

/-- `p4.E()` after the conservation loop.  `p4` is a `PxPyPzMVector`, whose
`operator+=` does `SetXYZT(..., t() + q.t())`; storing `t` through the mass
coordinate and reading it back through `E()` yields `|t|`, so the energy
accumulates as `E_k = |E_(k-1) + e_k|` starting from 0. -/
def rootE (l : List Particle) : ℚ :=
  (finalsOf l).foldl (fun a p => |a + p.mom.e|) 0

/-- The plain component sum of the energies of the FINAL entries (what the
spec's "summing the momenta" denotes for the energy component). -/
def plainE (l : List Particle) : ℚ :=
  (finalsOf l).foldl (fun a p => a + p.mom.e) 0

/-- One synthesized photon record:
`{22, -1, 0, PxPyPzMVector(0, 0, z, 0)}` converted to `PxPyPzEVector`,
whose energy is `sqrt(z^2) = |z|`. -/
def photon (z : ℚ) : Particle :=
  ⟨22, -1, 0, ⟨0, 0, z, |z|⟩⟩

/-- The two `emplace(parV.begin(), ...)` calls: the `(p4.Z()+p4.E())/2`
photon is inserted at the front first, then the `(p4.Z()-p4.E())/2` photon
is inserted at the front, so the latter ends up first in the list. -/
def buildEvent (l : List Particle) : List Particle :=
  photon ((sumPz l - rootE l) / 2) :: photon ((sumPz l + rootE l) / 2) :: l

/-- The mother string written for one particle:
`status > 0 ? (momI == 0 ? "1 2" : to_string(momI+2)+" 0") : "0 0"`,
as the pair of numbers it denotes. -/
def momS (status momI : Int) : Int × Int :=
  if 0 < status then (if momI = 0 then (1, 2) else (momI + 2, 0)) else (0, 0)

/-- One written particle line of an `<event>` block: pdg id, status, the two
mother slots, and the four momentum components that are printed (`M()` is
derived, see `rootM2`). -/
structure OutLine where
  pdgId : Int
  status : Int
  mom1 : Int
  mom2 : Int
  px : ℚ
  py : ℚ
  pz : ℚ
  e : ℚ
deriving DecidableEq, Repr, Inhabited

/-- Serialize one `parV` entry to its output line. -/
def emit (p : Particle) : OutLine :=
  ⟨p.pdgId, p.status, (momS p.status p.momI).1, (momS p.status p.momI).2,
    p.mom.px, p.mom.py, p.mom.pz, p.mom.e⟩

/-- The square of the ROOT invariant mass `M()` printed on an output line
(up to the sign convention `M = sign(M2) * sqrt |M2|`, so `M = 0 ↔ M2 = 0`). -/
def rootM2 (l : OutLine) : ℚ :=
  l.e ^ 2 - (l.px ^ 2 + l.py ^ 2 + l.pz ^ 2)

/-- One written `<event>` block: the particle count printed on its first
line (`parV.size()`), and the particle lines. -/
structure OutEvent where
  count : Nat
  lines : List OutLine
deriving DecidableEq, Repr, Inhabited

/-- Close an event: append the two fake photons and serialize. -/
def finishEvent (cur : List Particle) : OutEvent :=
  ⟨(buildEvent cur).length, (buildEvent cur).map emit⟩

/-- The parser state between two consecutive `getline` calls (the spec's
state machine `ExpectEventOrEnd → ExpectUnits → ExpectParticle(1..n)`).
`expectP r cur` means `r ≥ 1` more particle lines are expected and `cur`
holds the entries read so far; the event is closed eagerly when the last
particle line is consumed, so `expectP 0` never arises. -/
inductive PState where
  | expectEvent : PState
  | expectU (nPar : Nat) : PState
  | expectP (r : Nat) (cur : List Particle) : PState
deriving Repr

/-- The whole reading loop of `convert_UGHEPMC2LHE`, one `getline` per list
element.  Returns the `<event>` blocks written (in order) and the error the
run aborted with, if any; blocks written before an abort are kept, exactly
as the partially written output file is.

* end of stream in `expectEvent` position: the `while` condition's
  `getline` fails, the loop ends normally;
* `endMarker` in `expectEvent` position: the `while` condition stops;
* a non-`"E "`-prefixed line in `expectEvent` position: `continue` (skip);
* `badE` there: `"Failed to parse event line"`;
* after a header, the next line must have first token `U`, else (or at end
  of stream) `"Failed to parse event line"`;
* then exactly `nPar` (as `size_t`, i.e. the header value modulo 2^64)
  `P` lines must follow, each passing `stepP`, else
  `"Failed to parse track line"`. -/
def runLines : List Line → PState → List OutEvent → List OutEvent × Option Err
  | [], PState.expectEvent, acc => (acc.reverse, none)
  | [], PState.expectU _, acc => (acc.reverse, some Err.eventLine)
  | [], PState.expectP _ _, acc => (acc.reverse, some Err.trackLine)
  | l :: rest, PState.expectEvent, acc =>
    match l with
    | Line.endMarker => (acc.reverse, none)
    | Line.eline _ _ nPar => runLines rest (PState.expectU ((nPar % (2 ^ 64 : Int)).toNat)) acc
    | Line.badE => (acc.reverse, some Err.eventLine)
    | _ => runLines rest PState.expectEvent acc
  | l :: rest, PState.expectU nPar, acc =>
    match l with
    | Line.uline =>
      if nPar = 0 then runLines rest PState.expectEvent (finishEvent [] :: acc)
      else runLines rest (PState.expectP nPar []) acc
    | _ => (acc.reverse, some Err.eventLine)
  | l :: rest, PState.expectP r cur, acc =>
    match l with
    | Line.pline parI momI pdgId px py pz en _mass _status =>
      match stepP cur parI momI pdgId ⟨px, py, pz, en⟩ with
      | none => (acc.reverse, some Err.trackLine)
      | some cur1 =>
        if r = 1 then runLines rest PState.expectEvent (finishEvent cur1 :: acc)
        else runLines rest (PState.expectP (r - 1) cur1) acc
    | _ => (acc.reverse, some Err.trackLine)

/-- `convert_UGHEPMC2LHE`, restricted to its event-transform core: the file
opening, the `<init>` header and the fixed sentinel fields are external
collaborators the spec excludes. -/
def convert_UGHEPMC2LHE (lines : List Line) : List OutEvent × Option Err :=
  runLines lines PState.expectEvent []

/-- The data carried by one well-formed `P` line of the input (the status
field is read by the code but never used; it is kept here to state that). -/
structure InPart where
  momI : Int
  pdgId : Int
  px : ℚ
  py : ℚ
  pz : ℚ
  en : ℚ
  mass : ℚ
  statusField : Int
deriving DecidableEq, Repr, Inhabited

/-- Render the `P` lines of an event, positions numbered from `k+1`. -/
def renderParts : Nat → List InPart → List Line
  | _, [] => []
  | k, p :: ps =>
    Line.pline ((k : Int) + 1) p.momI p.pdgId p.px p.py p.pz p.en p.mass p.statusField
      :: renderParts (k + 1) ps

/-- One whole well-formed input event: header, unit line, particle lines. -/
def renderEvent (iEvt nVtx : Int) (parts : List InPart) : List Line :=
  Line.eline iEvt nVtx (parts.length : Int) :: Line.uline :: renderParts 0 parts

/-- A sequence of well-formed input events (ended by end of stream). -/
def renderEvents : List (Int × Int × List InPart) → List Line
  | [] => []
  | (i, v, ps) :: es => renderEvent i v ps ++ renderEvents es

/-- Per-event well-formedness, as the parser enforces it: the `j`-th particle
(0-based) declares a parent index strictly below its 1-based position
`j + 1`.  `k` is the 0-based position of the first listed particle. -/
def wfFrom (k : Nat) : List InPart → Bool
  | [] => true
  | p :: ps => decide (p.momI < (k : Int) + 1) && wfFrom (k + 1) ps

/-- A particle list the converter accepts: every parent index strictly below
its owner's position, and a length representable as a C++ `int` (so that
the declared count round-trips through the header field). -/
def WF (parts : List InPart) : Prop :=
  parts.length < 2 ^ 31 ∧ wfFrom 0 parts = true

instance (parts : List InPart) : Decidable (WF parts) := by
  unfold WF; infer_instance

/-- `q` names position `m` (0-based) as its parent, i.e. `q.momI = m + 1`. -/
def childOf (m : Nat) (q : InPart) : Bool :=
  q.momI == (m : Int) + 1

/-- The particle record before any promotion: status initialized to 1
(`FINAL`) regardless of the input status field, mass field dropped. -/
def toP (p : InPart) : Particle :=
  ⟨p.pdgId, 1, p.momI, ⟨p.px, p.py, p.pz, p.en⟩⟩

/-- Promote, in a list of already-built records whose first element sits at
absolute position `m`, every record that some member of `ps` names as
parent. -/
def promoteFrom (m : Nat) (ps : List InPart) : List Particle → List Particle
  | [] => []
  | q :: l =>
    (if ps.any (childOf m) then { q with status := 2 } else q)
      :: promoteFrom (m + 1) ps l

/-- The event's particle list as the reading loop leaves it, described
non-operationally: entry `j` (absolute position `k + j`) has status 2
exactly when a later sibling names it as parent, and status 1 otherwise. -/
def rel (k : Nat) : List InPart → List Particle
  | [] => []
  | p :: ps =>
    (if ps.any (childOf k) then { toP p with status := 2 } else toP p)
      :: rel (k + 1) ps

/-- The `<event>` block the converter writes for a well-formed event. -/
def blockOf (parts : List InPart) : OutEvent :=
  finishEvent (rel 0 parts)

/-- Feeding the converter one single event (any header numbers). -/
def processEvent (parts : List InPart) : List OutEvent × Option Err :=
  convert_UGHEPMC2LHE (renderEvent 1 0 parts)

/-! Structural lemmas about the list operations. -/

theorem setStatus2_length (l : List Particle) (j : Nat) :
    (setStatus2 l j).length = l.length := by
  induction l generalizing j with
  | nil => rfl
  | cons p ps ih =>
    cases j with
    | zero => rfl
    | succ n => simp [setStatus2, ih]

theorem pushPart_length (cur : List Particle) (momI pdgId : Int) (mom : P4) :
    (pushPart cur momI pdgId mom).length = cur.length + 1 := by
  unfold pushPart
  by_cases h : 0 < momI <;> simp [h, setStatus2_length]

theorem promoteFrom_length (m : Nat) (ps : List InPart) (l : List Particle) :
    (promoteFrom m ps l).length = l.length := by
  induction l generalizing m with
  | nil => rfl
  | cons q l ih => simp [promoteFrom, ih]

theorem rel_length (k : Nat) (ps : List InPart) : (rel k ps).length = ps.length := by
  induction ps generalizing k with
  | nil => rfl
  | cons p ps ih => simp [rel, ih]

theorem promoteFrom_nil (m : Nat) (l : List Particle) : promoteFrom m [] l = l := by
  induction l generalizing m with
  | nil => rfl
  | cons q l ih => simp [promoteFrom, List.any_nil, ih]

theorem promoteFrom_append (m : Nat) (ps : List InPart) (l₁ l₂ : List Particle) :
    promoteFrom m ps (l₁ ++ l₂) =
      promoteFrom m ps l₁ ++ promoteFrom (m + l₁.length) ps l₂ := by
  induction l₁ generalizing m with
  | nil => simp [promoteFrom]
  | cons q l ih =>
    simp only [List.cons_append, promoteFrom, List.append_eq, List.length_cons, ih (m + 1)]
    have h2 : m + (l.length + 1) = m + 1 + l.length := by omega
    rw [h2]

theorem promoteFrom_setStatus2 (l : List Particle) (m j : Nat) (ps : List InPart) :
    promoteFrom m ps (setStatus2 l j) = setStatus2 (promoteFrom m ps l) j := by
  induction l generalizing m j with
  | nil => rfl
  | cons q l ih =>
    cases j with
    | zero =>
      simp only [setStatus2, promoteFrom]
      by_cases h : ps.any (childOf m) <;> simp [h]
    | succ n =>
      simp only [setStatus2, promoteFrom, ih]

theorem setStatus2_append_left (l₁ l₂ : List Particle) (j : Nat) (h : j < l₁.length) :
    setStatus2 (l₁ ++ l₂) j = setStatus2 l₁ j ++ l₂ := by
  induction l₁ generalizing j with
  | nil => simp at h
  | cons q l ih =>
    cases j with
    | zero => rfl
    | succ n =>
      simp only [List.cons_append, setStatus2, List.append_eq, ih n (by simpa using h)]

theorem promoteFrom_cons_of_le (p : InPart) (ps : List InPart) (l : List Particle)
    (m : Nat) (h : p.momI ≤ (m : Int)) :
    promoteFrom m (p :: ps) l = promoteFrom m ps l := by
  induction l generalizing m with
  | nil => rfl
  | cons q l ih =>
    have hc : childOf m p = false := by
      simp only [childOf, beq_eq_false_iff_ne, ne_eq]
      omega
    simp only [promoteFrom, List.any_cons, hc, Bool.false_or]
    rw [ih (m + 1) (by push_cast; omega)]

theorem promoteFrom_cons_of_ge (p : InPart) (ps : List InPart) (l : List Particle)
    (m : Nat) (h : (m : Int) + 1 ≤ p.momI) :
    promoteFrom m (p :: ps) l =
      promoteFrom m ps (setStatus2 l ((p.momI - 1).toNat - m)) := by
  induction l generalizing m with
  | nil => rfl
  | cons q l ih =>
    by_cases he : p.momI = (m : Int) + 1
    · have hj : (p.momI - 1).toNat - m = 0 := by omega
      have hc : childOf m p = true := by simp [childOf, he]
      simp only [hj, setStatus2, promoteFrom, List.any_cons, hc, Bool.true_or]
      rw [promoteFrom_cons_of_le p ps l (m + 1) (by push_cast; omega)]
      by_cases hp : ps.any (childOf m) <;> simp [hp]
    · have hj : (p.momI - 1).toNat - m = ((p.momI - 1).toNat - (m + 1)) + 1 := by omega
      have hc : childOf m p = false := by
        simp only [childOf, beq_eq_false_iff_ne, ne_eq]
        omega
      simp only [hj, setStatus2, promoteFrom, List.any_cons, hc, Bool.false_or]
      rw [ih (m + 1) (by push_cast; omega)]

/-- The key step identity: storing one particle and promoting its mother,
then promoting by the later siblings `ps`, is the same as promoting the
already-stored records by all of `p :: ps` and placing the new record (with
its status derived from `ps` alone) at the end. -/
theorem pushPart_promote (cur : List Particle) (p : InPart) (ps : List InPart)
    (h : p.momI ≤ (cur.length : Int)) :
    promoteFrom 0 ps (pushPart cur p.momI p.pdgId ⟨p.px, p.py, p.pz, p.en⟩) =
      promoteFrom 0 (p :: ps) cur ++
        [if ps.any (childOf cur.length) then { toP p with status := 2 } else toP p] := by
  have hsingle : ∀ n : Nat,
      promoteFrom n ps [⟨p.pdgId, 1, p.momI, ⟨p.px, p.py, p.pz, p.en⟩⟩] =
      [if ps.any (childOf n) then { toP p with status := 2 } else toP p] := by
    intro n
    rfl
  unfold pushPart
  by_cases hm : 0 < p.momI
  · have hj : (p.momI - 1).toNat < cur.length := by omega
    rw [if_pos hm, promoteFrom_setStatus2, promoteFrom_append,
      setStatus2_append_left _ _ _ (by rw [promoteFrom_length]; exact hj),
      Nat.zero_add, hsingle,
      promoteFrom_cons_of_ge p ps cur 0 (by omega), promoteFrom_setStatus2,
      Nat.sub_zero]
  · rw [if_neg hm, promoteFrom_append, Nat.zero_add, hsingle,
      promoteFrom_cons_of_le p ps cur 0 (by omega)]

/-! Running the machine over well-formed event renderings. -/

theorem stepP_ok (cur : List Particle) (p : InPart)
    (hlt : (cur.length : Int) + 1 < 2 ^ 64) (hwf : p.momI < (cur.length : Int) + 1) :
    stepP cur ((cur.length : Int) + 1) p.momI p.pdgId ⟨p.px, p.py, p.pz, p.en⟩ =
      some (pushPart cur p.momI p.pdgId ⟨p.px, p.py, p.pz, p.en⟩) := by
  unfold stepP
  rw [if_pos]
  exact ⟨Int.emod_eq_of_lt (by omega) hlt, hwf⟩

theorem runLines_pline_step {parI momI pdgId : Int} {px py pz en mass : ℚ} {st : Int}
    {cur cur1 : List Particle} (rest : List Line) (r : Nat) (acc : List OutEvent)
    (hs : stepP cur parI momI pdgId ⟨px, py, pz, en⟩ = some cur1) (hr : r ≠ 1) :
    runLines (Line.pline parI momI pdgId px py pz en mass st :: rest)
        (PState.expectP r cur) acc =
      runLines rest (PState.expectP (r - 1) cur1) acc := by
  simp only [runLines, hs]
  rw [if_neg hr]

theorem runLines_pline_last {parI momI pdgId : Int} {px py pz en mass : ℚ} {st : Int}
    {cur cur1 : List Particle} (rest : List Line) (acc : List OutEvent)
    (hs : stepP cur parI momI pdgId ⟨px, py, pz, en⟩ = some cur1) :
    runLines (Line.pline parI momI pdgId px py pz en mass st :: rest)
        (PState.expectP 1 cur) acc =
      runLines rest PState.expectEvent (finishEvent cur1 :: acc) := by
  simp only [runLines, hs]
  simp

/-- Consuming exactly the rendered particle lines of one event: the machine
ends the event and stores the block built from the promoted particle list. -/
theorem runLines_parts (ps : List InPart) (cur : List Particle)
    (acc : List OutEvent) (rest : List Line) (hne : ps ≠ [])
    (hlt : cur.length + ps.length < 2 ^ 64)
    (hwf : wfFrom cur.length ps = true) :
    runLines (renderParts cur.length ps ++ rest) (PState.expectP ps.length cur) acc =
      runLines rest PState.expectEvent
        (finishEvent (promoteFrom 0 ps cur ++ rel cur.length ps) :: acc) := by
  induction ps generalizing cur acc with
  | nil => exact absurd rfl hne
  | cons p ps ih =>
    simp only [wfFrom, Bool.and_eq_true, decide_eq_true_eq] at hwf
    have hstep := stepP_ok cur p (by simp only [List.length_cons] at hlt; omega) hwf.1
    cases ps with
    | nil =>
      have h1 : renderParts cur.length [p] ++ rest =
          Line.pline ((cur.length : Int) + 1) p.momI p.pdgId
            p.px p.py p.pz p.en p.mass p.statusField :: rest := rfl
      rw [h1]
      rw [show ([p] : List InPart).length = 1 from rfl]
      rw [runLines_pline_last rest acc hstep]
      have hblock : pushPart cur p.momI p.pdgId ⟨p.px, p.py, p.pz, p.en⟩ =
          promoteFrom 0 [p] cur ++ rel cur.length [p] := by
        have h2 := pushPart_promote cur p [] (by omega)
        rw [promoteFrom_nil] at h2
        rw [h2]
        rfl
      rw [hblock]
    | cons p2 ps2 =>
      have h1 : renderParts cur.length (p :: p2 :: ps2) ++ rest =
          Line.pline ((cur.length : Int) + 1) p.momI p.pdgId
            p.px p.py p.pz p.en p.mass p.statusField ::
            (renderParts (cur.length + 1) (p2 :: ps2) ++ rest) := rfl
      rw [h1]
      rw [runLines_pline_step _ _ acc hstep (by simp)]
      have hlen : (pushPart cur p.momI p.pdgId ⟨p.px, p.py, p.pz, p.en⟩).length =
          cur.length + 1 := pushPart_length ..
      have hrec := ih (pushPart cur p.momI p.pdgId ⟨p.px, p.py, p.pz, p.en⟩) acc
        (by simp)
        (by rw [hlen]; simp only [List.length_cons] at hlt ⊢; omega)
        (by rw [hlen]; exact hwf.2)
      rw [hlen] at hrec
      rw [show (p :: p2 :: ps2).length - 1 = (p2 :: ps2).length from rfl]
      rw [hrec]
      have harg : promoteFrom 0 (p2 :: ps2) (pushPart cur p.momI p.pdgId
            ⟨p.px, p.py, p.pz, p.en⟩) ++ rel (cur.length + 1) (p2 :: ps2) =
          promoteFrom 0 (p :: p2 :: ps2) cur ++ rel cur.length (p :: p2 :: ps2) := by
        rw [pushPart_promote cur p (p2 :: ps2) (by omega), List.append_assoc]
        rfl
      rw [harg]

/-- Consuming one whole well-formed rendered event from the expect-event
state: its block is pushed and the machine returns to expect-event. -/
theorem runLines_event (parts : List InPart) (hwf : WF parts) (i v : Int)
    (rest : List Line) (acc : List OutEvent) :
    runLines (renderEvent i v parts ++ rest) PState.expectEvent acc =
      runLines rest PState.expectEvent (blockOf parts :: acc) := by
  obtain ⟨hlen, hwf0⟩ := hwf
  have hmod : (((parts.length : Int)) % (2 ^ 64 : Int)).toNat = parts.length := by
    omega
  have h0 : renderEvent i v parts ++ rest =
      Line.eline i v (parts.length : Int) :: Line.uline ::
        (renderParts 0 parts ++ rest) := rfl
  have h1 : ∀ (st : PState) (a : List OutEvent) (ls : List Line),
      runLines (Line.eline i v (parts.length : Int) :: ls) PState.expectEvent a =
        runLines ls (PState.expectU (((parts.length : Int)) % (2 ^ 64 : Int)).toNat) a :=
    fun _ _ _ => rfl
  rw [h0, h1 PState.expectEvent acc, hmod]
  cases parts with
  | nil =>
    rfl
  | cons q qs =>
    have h2 : runLines (Line.uline :: (renderParts 0 (q :: qs) ++ rest))
        (PState.expectU (q :: qs).length) acc =
        runLines (renderParts 0 (q :: qs) ++ rest)
          (PState.expectP (q :: qs).length []) acc := by
      simp only [runLines]
      rw [if_neg (by simp)]
    rw [h2]
    have h3 := runLines_parts (q :: qs) [] acc rest (by simp)
      (by simp only [List.length_nil, Nat.zero_add]; omega) hwf0
    simp only [List.length_nil] at h3
    rw [h3]
    rfl

/-- Consuming a sequence of well-formed rendered events. -/
theorem runLines_events (evs : List (Int × Int × List InPart))
    (hwf : ∀ e ∈ evs, WF e.2.2) (rest : List Line) (acc : List OutEvent) :
    runLines (renderEvents evs ++ rest) PState.expectEvent acc =
      runLines rest PState.expectEvent
        ((evs.map (fun e => blockOf e.2.2)).reverse ++ acc) := by
  induction evs generalizing acc with
  | nil => simp [renderEvents]
  | cons e es ih =>
    obtain ⟨i, v, ps⟩ := e
    simp only [renderEvents, List.append_assoc]
    rw [runLines_event ps (hwf (i, v, ps) (List.mem_cons_self _ _)) i v]
    rw [ih (fun x hx => hwf x (by simp [hx]))]
    simp

/-- A well-formed single-event input converts to exactly its block. -/
theorem processEvent_eq (parts : List InPart) (hwf : WF parts) :
    processEvent parts = ([blockOf parts], none) := by
  unfold processEvent convert_UGHEPMC2LHE
  rw [show renderEvent 1 0 parts = renderEvent 1 0 parts ++ [] by simp]
  rw [runLines_event parts hwf 1 0]
  rfl

/-- A well-formed multi-event input converts to exactly its blocks. -/
theorem convertEvents_eq (evs : List (Int × Int × List InPart))
    (hwf : ∀ e ∈ evs, WF e.2.2) :
    convert_UGHEPMC2LHE (renderEvents evs) =
      (evs.map (fun e => blockOf e.2.2), none) := by
  unfold convert_UGHEPMC2LHE
  rw [show renderEvents evs = renderEvents evs ++ [] by simp]
  rw [runLines_events evs hwf]
  simp [runLines]

/-- Consuming a strict prefix of an event's declared particles leaves the
machine still expecting the remaining ones, with some intermediate list. -/
theorem runLines_midEvent (ps : List InPart) (cur : List Particle) (r : Nat)
    (acc : List OutEvent) (rest : List Line) (hr : ps.length < r)
    (hlt : cur.length + ps.length < 2 ^ 64)
    (hwf : wfFrom cur.length ps = true) :
    ∃ cur2 : List Particle, cur2.length = cur.length + ps.length ∧
      runLines (renderParts cur.length ps ++ rest) (PState.expectP r cur) acc =
        runLines rest (PState.expectP (r - ps.length) cur2) acc := by
  induction ps generalizing cur r with
  | nil =>
    exact ⟨cur, by simp, by simp [renderParts]⟩
  | cons p ps ih =>
    simp only [wfFrom, Bool.and_eq_true, decide_eq_true_eq] at hwf
    have hstep := stepP_ok cur p (by simp only [List.length_cons] at hlt; omega) hwf.1
    have h1 : renderParts cur.length (p :: ps) ++ rest =
        Line.pline ((cur.length : Int) + 1) p.momI p.pdgId
          p.px p.py p.pz p.en p.mass p.statusField ::
          (renderParts (cur.length + 1) ps ++ rest) := rfl
    rw [h1]
    rw [runLines_pline_step _ _ acc hstep (by simp only [List.length_cons] at hr; omega)]
    have hlen : (pushPart cur p.momI p.pdgId ⟨p.px, p.py, p.pz, p.en⟩).length =
        cur.length + 1 := pushPart_length ..
    obtain ⟨cur2, hc2, hrun⟩ := ih (pushPart cur p.momI p.pdgId ⟨p.px, p.py, p.pz, p.en⟩)
      (r - 1) (by simp only [List.length_cons] at hr; omega)
      (by rw [hlen]; simp only [List.length_cons] at hlt; omega)
      (by rw [hlen]; exact hwf.2)
    rw [hlen] at hrun hc2
    refine ⟨cur2, by simp only [List.length_cons]; omega, ?_⟩
    rw [hrun]
    have h4 : r - 1 - ps.length = r - (p :: ps).length := by
      simp only [List.length_cons]
      omega
    rw [h4]

theorem runLines_pline_fail {parI momI pdgId : Int} {px py pz en mass : ℚ} {st : Int}
    {cur : List Particle} (rest : List Line) (r : Nat) (acc : List OutEvent)
    (hs : stepP cur parI momI pdgId ⟨px, py, pz, en⟩ = none) :
    runLines (Line.pline parI momI pdgId px py pz en mass st :: rest)
        (PState.expectP r cur) acc =
      (acc.reverse, some Err.trackLine) := by
  simp only [runLines, hs]

/-! Shape of the particle list the loop builds. -/

theorem getD_map_emit (l : List Particle) (i : Nat) (h : i < l.length)
    (d : OutLine) (d2 : Particle) :
    (l.map emit).getD i d = emit (l.getD i d2) := by
  induction l generalizing i with
  | nil => simp at h
  | cons p l ih =>
    cases i with
    | zero => rfl
    | succ n =>
      simp only [List.map_cons, List.getD_cons_succ]
      exact ih n (by simpa using h)

theorem rel_getD (ps : List InPart) (k i : Nat) (h : i < ps.length) (d : Particle) :
    (rel k ps).getD i d =
      (if (ps.drop (i + 1)).any (childOf (k + i)) then
        { toP (ps.getD i default) with status := 2 }
      else toP (ps.getD i default)) := by
  induction ps generalizing k i with
  | nil => simp at h
  | cons p ps ih =>
    cases i with
    | zero =>
      simp only [rel, List.getD_cons_zero, List.drop_succ_cons, List.drop_zero,
        Nat.add_zero]
    | succ n =>
      simp only [rel, List.getD_cons_succ, List.drop_succ_cons]
      rw [ih (k + 1) n (by simpa using h)]
      have h2 : k + 1 + n = k + (n + 1) := by omega
      rw [h2]

theorem rel_status (ps : List InPart) (k i : Nat) (h : i < ps.length) :
    ((rel k ps).getD i default).status =
      (if (ps.drop (i + 1)).any (childOf (k + i)) then 2 else 1) := by
  rw [rel_getD ps k i h]
  by_cases hc : (ps.drop (i + 1)).any (childOf (k + i)) <;> simp [hc, toP]

theorem rel_momI (ps : List InPart) (k i : Nat) (h : i < ps.length) :
    ((rel k ps).getD i default).momI = (ps.getD i default).momI := by
  rw [rel_getD ps k i h]
  by_cases hc : (ps.drop (i + 1)).any (childOf (k + i)) <;> simp [hc, toP]

theorem rel_pdgId (ps : List InPart) (k i : Nat) (h : i < ps.length) :
    ((rel k ps).getD i default).pdgId = (ps.getD i default).pdgId := by
  rw [rel_getD ps k i h]
  by_cases hc : (ps.drop (i + 1)).any (childOf (k + i)) <;> simp [hc, toP]

theorem rel_mom (ps : List InPart) (k i : Nat) (h : i < ps.length) :
    ((rel k ps).getD i default).mom =
      ⟨(ps.getD i default).px, (ps.getD i default).py,
        (ps.getD i default).pz, (ps.getD i default).en⟩ := by
  rw [rel_getD ps k i h]
  by_cases hc : (ps.drop (i + 1)).any (childOf (k + i)) <;> simp [hc, toP]

theorem any_drop_iff (ps : List InPart) (n : Nat) (q : InPart → Bool) :
    (ps.drop n).any q = true ↔
      ∃ j, n ≤ j ∧ j < ps.length ∧ q (ps.getD j default) = true := by
  induction ps generalizing n with
  | nil =>
    simp
  | cons p ps ih =>
    cases n with
    | zero =>
      simp only [List.drop_zero, List.any_cons, Bool.or_eq_true]
      constructor
      · rintro (h | h)
        · exact ⟨0, Nat.le_refl _, by simp, by simpa using h⟩
        · obtain ⟨j, _, hj, hq⟩ := (ih 0).1 (by simpa using h)
          exact ⟨j + 1, by omega, by simp only [List.length_cons]; omega,
            by simpa using hq⟩
      · rintro ⟨j, _, hj, hq⟩
        cases j with
        | zero => exact Or.inl (by simpa using hq)
        | succ m =>
          refine Or.inr ?_
          have : (ps.drop 0).any q = true :=
            (ih 0).2 ⟨m, Nat.zero_le _, by simp only [List.length_cons] at hj; omega,
              by simpa using hq⟩
          simpa using this
    | succ n =>
      rw [List.drop_succ_cons, ih n]
      constructor
      · rintro ⟨j, h1, h2, h3⟩
        exact ⟨j + 1, by omega, by simp only [List.length_cons]; omega,
          by simpa using h3⟩
      · rintro ⟨j, h1, h2, h3⟩
        cases j with
        | zero => omega
        | succ m =>
          exact ⟨m, by omega, by simp only [List.length_cons] at h2; omega,
            by simpa using h3⟩

theorem foldl_abs_of_nonneg (l : List Particle) (a : ℚ) (ha : 0 ≤ a)
    (h : ∀ p ∈ l, 0 ≤ p.mom.e) :
    l.foldl (fun x p => |x + p.mom.e|) a = l.foldl (fun x p => x + p.mom.e) a ∧
      0 ≤ l.foldl (fun x p => x + p.mom.e) a := by
  induction l generalizing a with
  | nil => exact ⟨rfl, ha⟩
  | cons p l ih =>
    have hp : 0 ≤ p.mom.e := h p (List.mem_cons_self _ _)
    have ha2 : 0 ≤ a + p.mom.e := add_nonneg ha hp
    simp only [List.foldl_cons]
    rw [abs_of_nonneg ha2]
    exact ih (a + p.mom.e) ha2 (fun w hw => h w (List.mem_cons_of_mem _ hw))

/-- When every FINAL particle carries nonnegative energy (every physical
input), the ROOT accumulator energy is the plain sum. -/
theorem rootE_eq_plainE (l : List Particle) (h : ∀ p ∈ finalsOf l, 0 ≤ p.mom.e) :
    rootE l = plainE l :=
  (foldl_abs_of_nonneg (finalsOf l) 0 le_rfl h).1

/-- Zero out the never-used status field of an input particle. -/
def clearStatusField (p : InPart) : InPart :=
  { p with statusField := 0 }

theorem rel_clear (k : Nat) (ps : List InPart) :
    rel k (ps.map clearStatusField) = rel k ps := by
  induction ps generalizing k with
  | nil => rfl
  | cons p ps ih =>
    have hco : ∀ m : Nat, (childOf m ∘ clearStatusField) = childOf m :=
      fun m => funext fun w => rfl
    simp only [List.map_cons, rel, List.any_map, hco, ih (k + 1)]
    rfl

theorem wfFrom_clear (k : Nat) (ps : List InPart) :
    wfFrom k (ps.map clearStatusField) = wfFrom k ps := by
  induction ps generalizing k with
  | nil => rfl
  | cons p ps ih => simp only [List.map_cons, wfFrom, ih (k + 1)]; rfl

theorem WF_clear (parts : List InPart) (hwf : WF parts) :
    WF (parts.map clearStatusField) := by
  obtain ⟨h1, h2⟩ := hwf
  exact ⟨by simpa using h1, by rw [wfFrom_clear]; exact h2⟩

/-! Small output-shape facts. -/

theorem emit_photon (z : ℚ) : emit (photon z) = ⟨22, -1, 0, 0, 0, 0, z, |z|⟩ := rfl

theorem blockOf_lines_zero (parts : List InPart) :
    (blockOf parts).lines.getD 0 default =
      emit (photon ((sumPz (rel 0 parts) - rootE (rel 0 parts)) / 2)) := rfl

theorem blockOf_lines_one (parts : List InPart) :
    (blockOf parts).lines.getD 1 default =
      emit (photon ((sumPz (rel 0 parts) + rootE (rel 0 parts)) / 2)) := rfl

theorem blockOf_lines_orig (parts : List InPart) (i : Nat) (hi : i < parts.length) :
    (blockOf parts).lines.getD (i + 2) default =
      emit ((rel 0 parts).getD i default) := by
  show ((buildEvent (rel 0 parts)).map emit).getD (i + 2) default = _
  simp only [buildEvent, List.map_cons, List.getD_cons_succ]
  exact getD_map_emit _ i (by rw [rel_length]; exact hi) _ _

/-! The claims. -/

/-- Claim C2, counterexample.  For the single-particle event with momentum
(0, 0, -5, 3) the total is T = (0, 0, -5, 3), so the record built from
`(T.pz + T.energy)/2 = -1` would, per the claim, carry energy -1; the code
stores a `PxPyPzMVector` with mass 0, whose energy is `|-1| = 1`.  So the
claimed photon-A record is not the one the code synthesizes. -/
theorem c2_counterexample :
    processEvent [⟨0, 11, 0, 0, -5, 3, 0, 1⟩] =
      ([blockOf [⟨0, 11, 0, 0, -5, 3, 0, 1⟩]], none) ∧
    (sumPz (rel 0 [⟨0, 11, 0, 0, -5, 3, 0, 1⟩]) +
        plainE (rel 0 [⟨0, 11, 0, 0, -5, 3, 0, 1⟩])) / 2 = -1 ∧
    ((blockOf [⟨0, 11, 0, 0, -5, 3, 0, 1⟩]).lines.getD 1 default).e ≠ -1 := by
  refine ⟨processEvent_eq _ (by decide), ?_, ?_⟩
  · norm_num [rel, toP, childOf, sumPz, plainE, finalsOf, List.filter, List.foldl]
  · norm_num [blockOf, finishEvent, buildEvent, emit, photon, momS, rel, toP, childOf,
      sumPz, rootE, finalsOf, List.filter, List.foldl, List.getD, List.get?]

/-- Claim C2 as amended: the two synthesized records are exactly
`{pdgId 22, status INCOMING = -1, motherIndex 0}` with momenta
`(0, 0, (T.pz+T.energy)/2, |(T.pz+T.energy)/2|)` and
`(0, 0, (T.pz-T.energy)/2, |(T.pz-T.energy)/2|)`: the energy component is
the absolute value of the pz component (they equal the claim's
`±(T.pz∓T.energy)/2` exactly when `|T.pz| ≤ T.energy`), and the energy
total `T.energy` is the ROOT accumulator value `rootE`. -/
theorem c2_photons_amended (parts : List InPart) (hwf : WF parts) :
    processEvent parts = ([blockOf parts], none) ∧
    (buildEvent (rel 0 parts)).getD 1 default =
      ⟨22, -1, 0, ⟨0, 0, (sumPz (rel 0 parts) + rootE (rel 0 parts)) / 2,
        |(sumPz (rel 0 parts) + rootE (rel 0 parts)) / 2|⟩⟩ ∧
    (buildEvent (rel 0 parts)).getD 0 default =
      ⟨22, -1, 0, ⟨0, 0, (sumPz (rel 0 parts) - rootE (rel 0 parts)) / 2,
        |(sumPz (rel 0 parts) - rootE (rel 0 parts)) / 2|⟩⟩ :=
  ⟨processEvent_eq parts hwf, rfl, rfl⟩

/-- Claim C2 amended, witness at a concrete event. -/
theorem c2_photons_amended_witness :
    WF [⟨0, 2212, 1, 2, 3, 9, 1, 4⟩] ∧
    ((buildEvent (rel 0 [⟨0, 2212, 1, 2, 3, 9, 1, 4⟩])).getD 1 default =
      ⟨22, -1, 0, ⟨0, 0, 6, 6⟩⟩) := by
  refine ⟨by decide, ?_⟩
  rw [(c2_photons_amended [⟨0, 2212, 1, 2, 3, 9, 1, 4⟩] (by decide)).2.1]
  norm_num [rel, toP, childOf, sumPz, rootE, finalsOf, List.filter, List.foldl]

/-- Claim C3, counterexample.  On the spec's own example (a single electron
with momentum (0, 0, 10, 10.511)) the first emitted particle line carries
pz = (T.pz - T.energy)/2 = -0.2555, not (T.pz + T.energy)/2 = 10.2555: the
photon built from `(T.pz + T.energy)/2` is emitted second, not first. -/
theorem c3_counterexample :
    processEvent [⟨0, 11, 0, 0, 10, 10.511, 0.000511, 1⟩] =
      ([blockOf [⟨0, 11, 0, 0, 10, 10.511, 0.000511, 1⟩]], none) ∧
    ((blockOf [⟨0, 11, 0, 0, 10, 10.511, 0.000511, 1⟩]).lines.getD 0 default).pz ≠
      (sumPz (rel 0 [⟨0, 11, 0, 0, 10, 10.511, 0.000511, 1⟩]) +
        rootE (rel 0 [⟨0, 11, 0, 0, 10, 10.511, 0.000511, 1⟩])) / 2 := by
  refine ⟨processEvent_eq _ (by decide), ?_⟩
  have ha : |(10511 : ℚ) / 1000| = 10511 / 1000 := abs_of_nonneg (by norm_num)
  norm_num [blockOf, finishEvent, buildEvent, emit, photon, momS, rel, toP, childOf,
    sumPz, rootE, finalsOf, List.filter, List.foldl, List.getD, List.get?, ha]

/-- Claim C3 as amended: the photon built from `(T.pz - T.energy)/2` is
emitted first and the one built from `(T.pz + T.energy)/2` second (the
code inserts the plus photon at the front first and then the minus photon
at the front), followed by the original particles in their original
order. -/
theorem c3_order_amended (parts : List InPart) (hwf : WF parts) :
    processEvent parts = ([blockOf parts], none) ∧
    (blockOf parts).lines =
      emit (photon ((sumPz (rel 0 parts) - rootE (rel 0 parts)) / 2)) ::
        emit (photon ((sumPz (rel 0 parts) + rootE (rel 0 parts)) / 2)) ::
        (rel 0 parts).map emit ∧
    ∀ i, i < parts.length →
      ((blockOf parts).lines.getD (i + 2) default).pdgId =
          (parts.getD i default).pdgId ∧
      ((blockOf parts).lines.getD (i + 2) default).px = (parts.getD i default).px ∧
      ((blockOf parts).lines.getD (i + 2) default).py = (parts.getD i default).py ∧
      ((blockOf parts).lines.getD (i + 2) default).pz = (parts.getD i default).pz ∧
      ((blockOf parts).lines.getD (i + 2) default).e = (parts.getD i default).en := by
  refine ⟨processEvent_eq parts hwf, rfl, ?_⟩
  intro i hi
  rw [blockOf_lines_orig parts i hi]
  have hm := rel_mom parts 0 i hi
  have hp := rel_pdgId parts 0 i hi
  refine ⟨hp, ?_, ?_, ?_, ?_⟩
  · show ((rel 0 parts).getD i default).mom.px = _
    rw [hm]
  · show ((rel 0 parts).getD i default).mom.py = _
    rw [hm]
  · show ((rel 0 parts).getD i default).mom.pz = _
    rw [hm]
  · show ((rel 0 parts).getD i default).mom.e = _
    rw [hm]

/-- Claim C3 amended, witness: a two-particle event (the second naming the
first as parent); the emitted order is minus photon, plus photon, then the
originals in input order. -/
theorem c3_order_amended_witness :
    WF [⟨0, 22, 0, 0, 1, 1, 0, 1⟩, ⟨1, 11, 0, 0, 1, 1, 0, 1⟩] ∧
    ((blockOf [⟨0, 22, 0, 0, 1, 1, 0, 1⟩, ⟨1, 11, 0, 0, 1, 1, 0, 1⟩]).lines.getD 2
        default).pdgId = 22 ∧
    ((blockOf [⟨0, 22, 0, 0, 1, 1, 0, 1⟩, ⟨1, 11, 0, 0, 1, 1, 0, 1⟩]).lines.getD 3
        default).pdgId = 11 := by
  have h := c3_order_amended [⟨0, 22, 0, 0, 1, 1, 0, 1⟩, ⟨1, 11, 0, 0, 1, 1, 0, 1⟩]
    (by decide)
  have h2 : ((blockOf [⟨0, 22, 0, 0, 1, 1, 0, 1⟩, ⟨1, 11, 0, 0, 1, 1, 0, 1⟩]).lines.getD 2
      default).pdgId =
      ([⟨0, 22, 0, 0, 1, 1, 0, 1⟩, ⟨1, 11, 0, 0, 1, 1, 0, 1⟩].getD 0
        (default : InPart)).pdgId := (h.2.2 0 (by decide)).1
  have h3 : ((blockOf [⟨0, 22, 0, 0, 1, 1, 0, 1⟩, ⟨1, 11, 0, 0, 1, 1, 0, 1⟩]).lines.getD 3
      default).pdgId =
      ([⟨0, 22, 0, 0, 1, 1, 0, 1⟩, ⟨1, 11, 0, 0, 1, 1, 0, 1⟩].getD 1
        (default : InPart)).pdgId := (h.2.2 1 (by decide)).1
  refine ⟨by decide, ?_, ?_⟩
  · rw [h2]
    decide
  · rw [h3]
    decide

/-- Claim C9: both synthesized photon lines have the recomputed invariant
mass identically zero (`M() = 0` iff its square `rootM2 = 0`), energy equal
to `|pz|`, and hence nonnegative energy, whatever the signs of
`(T.pz ± T.energy)/2`. -/
theorem c9_photon_invariants (parts : List InPart) (hwf : WF parts) :
    processEvent parts = ([blockOf parts], none) ∧
    rootM2 ((blockOf parts).lines.getD 0 default) = 0 ∧
    rootM2 ((blockOf parts).lines.getD 1 default) = 0 ∧
    ((blockOf parts).lines.getD 0 default).e =
      |((blockOf parts).lines.getD 0 default).pz| ∧
    ((blockOf parts).lines.getD 1 default).e =
      |((blockOf parts).lines.getD 1 default).pz| ∧
    0 ≤ ((blockOf parts).lines.getD 0 default).e ∧
    0 ≤ ((blockOf parts).lines.getD 1 default).e := by
  have habs : ∀ z : ℚ, rootM2 (emit (photon z)) = 0 := by
    intro z
    show |z| ^ 2 - (0 ^ 2 + 0 ^ 2 + z ^ 2) = 0
    rw [sq_abs]
    ring
  refine ⟨processEvent_eq parts hwf, ?_, ?_, rfl, rfl, ?_, ?_⟩
  · rw [blockOf_lines_zero]
    exact habs _
  · rw [blockOf_lines_one]
    exact habs _
  · exact abs_nonneg _
  · exact abs_nonneg _

/-- Claim C9, witness at a concrete event with a spacelike total. -/
theorem c9_photon_invariants_witness :
    WF [⟨0, 211, 2, 0, -1, 5, 0, 1⟩] ∧
    rootM2 ((blockOf [⟨0, 211, 2, 0, -1, 5, 0, 1⟩]).lines.getD 0 default) = 0 := by
  exact ⟨by decide, (c9_photon_invariants [⟨0, 211, 2, 0, -1, 5, 0, 1⟩] (by decide)).2.1⟩

/-- Claim C10: a negative declared parent index parses fine (only
`parent ≥ own position` is rejected), triggers no promotion (a promotion
needs `momI = j + 1 ≥ 1`), and the particle's emitted parent pair is
`(momI + 2, 0)` — for `momI = -1` that is `(1, 0)`. -/
theorem c10_negative_parent (parts : List InPart) (hwf : WF parts) (i : Nat)
    (hi : i < parts.length) (hneg : (parts.getD i default).momI < 0) :
    processEvent parts = ([blockOf parts], none) ∧
    ((blockOf parts).lines.getD (i + 2) default).mom1 =
      (parts.getD i default).momI + 2 ∧
    ((blockOf parts).lines.getD (i + 2) default).mom2 = 0 ∧
    (∀ j : Nat, childOf j (parts.getD i default) = false) ∧
    ((parts.getD i default).momI = -1 →
      ((blockOf parts).lines.getD (i + 2) default).mom1 = 1) := by
  have hline := blockOf_lines_orig parts i hi
  have hmom := rel_momI parts 0 i hi
  have hst := rel_status parts 0 i hi
  have hs2 : 0 < ((rel 0 parts).getD i default).status := by
    rw [hst]
    by_cases hc : (parts.drop (i + 1)).any (childOf (0 + i)) = true
    · rw [if_pos hc]
      decide
    · rw [if_neg hc]
      decide
  have hpair : momS ((rel 0 parts).getD i default).status
      ((rel 0 parts).getD i default).momI =
      ((parts.getD i default).momI + 2, 0) := by
    rw [momS, if_pos hs2, hmom, if_neg (by omega)]
  have hm1 : ((blockOf parts).lines.getD (i + 2) default).mom1 =
      (parts.getD i default).momI + 2 := by
    rw [hline]
    show (momS ((rel 0 parts).getD i default).status
      ((rel 0 parts).getD i default).momI).1 = _
    rw [hpair]
  refine ⟨processEvent_eq parts hwf, hm1, ?_, ?_, ?_⟩
  · rw [hline]
    show (momS ((rel 0 parts).getD i default).status
      ((rel 0 parts).getD i default).momI).2 = 0
    rw [hpair]
  · intro j
    simp only [childOf, beq_eq_false_iff_ne, ne_eq]
    omega
  · intro hm
    rw [hm1, hm]
    decide

theorem rel_status_pos (ps : List InPart) (k i : Nat) (h : i < ps.length) :
    0 < ((rel k ps).getD i default).status := by
  rw [rel_status ps k i h]
  by_cases hc : (ps.drop (i + 1)).any (childOf (k + i)) = true
  · rw [if_pos hc]
    decide
  · rw [if_neg hc]
    decide

/-- Claim C4: an original particle is emitted with status `HAS_DAUGHTER` (2)
iff some later particle of the same event declared it as parent, and
`FINAL` (1) otherwise; and the status field read from the input lines never
matters (zeroing every status field leaves the conversion unchanged). -/
theorem c4_status_promotion (parts : List InPart) (hwf : WF parts) (i : Nat)
    (hi : i < parts.length) :
    processEvent parts = ([blockOf parts], none) ∧
    (((blockOf parts).lines.getD (i + 2) default).status = 2 ↔
      ∃ j, i < j ∧ j < parts.length ∧ (parts.getD j default).momI = (i : Int) + 1) ∧
    (((blockOf parts).lines.getD (i + 2) default).status ≠ 2 →
      ((blockOf parts).lines.getD (i + 2) default).status = 1) ∧
    processEvent (parts.map clearStatusField) = processEvent parts := by
  have hline := blockOf_lines_orig parts i hi
  have hst := rel_status parts 0 i hi
  have hstatus : ((blockOf parts).lines.getD (i + 2) default).status =
      ((rel 0 parts).getD i default).status := by
    rw [hline]
    rfl
  have hiff : (parts.drop (i + 1)).any (childOf (0 + i)) = true ↔
      ∃ j, i < j ∧ j < parts.length ∧ (parts.getD j default).momI = (i : Int) + 1 := by
    rw [Nat.zero_add, any_drop_iff]
    constructor
    · rintro ⟨j, h1, h2, h3⟩
      refine ⟨j, by omega, h2, ?_⟩
      simp only [childOf, beq_iff_eq] at h3
      exact h3
    · rintro ⟨j, h1, h2, h3⟩
      refine ⟨j, by omega, h2, ?_⟩
      simp only [childOf, beq_iff_eq]
      exact h3
  refine ⟨processEvent_eq parts hwf, ?_, ?_, ?_⟩
  · rw [hstatus, hst]
    by_cases hc : (parts.drop (i + 1)).any (childOf (0 + i)) = true
    · rw [if_pos hc]
      exact ⟨fun _ => hiff.1 hc, fun _ => rfl⟩
    · rw [if_neg hc]
      constructor
      · intro h
        exact absurd h (by decide)
      · intro hex
        exact absurd (hiff.2 hex) hc
  · rw [hstatus, hst]
    by_cases hc : (parts.drop (i + 1)).any (childOf (0 + i)) = true
    · rw [if_pos hc]
      intro h
      exact absurd rfl h
    · rw [if_neg hc]
      intro _
      rfl
  · rw [processEvent_eq parts hwf, processEvent_eq _ (WF_clear parts hwf)]
    unfold blockOf
    rw [rel_clear]

/-- Claim C4, witness: a two-particle event whose second particle names the
first as parent; the first is emitted with status 2. -/
theorem c4_status_promotion_witness :
    (WF [⟨0, 443, 0, 0, 1, 4, 3, 2⟩, ⟨1, 11, 0, 0, 1, 2, 0, 7⟩] ∧
      0 < ([⟨0, 443, 0, 0, 1, 4, 3, 2⟩, ⟨1, 11, 0, 0, 1, 2, 0, 7⟩] : List InPart).length) ∧
    ((blockOf [⟨0, 443, 0, 0, 1, 4, 3, 2⟩, ⟨1, 11, 0, 0, 1, 2, 0, 7⟩]).lines.getD (0 + 2)
      default).status = 2 := by
  refine ⟨⟨by decide, by decide⟩, ?_⟩
  exact ((c4_status_promotion [⟨0, 443, 0, 0, 1, 4, 3, 2⟩, ⟨1, 11, 0, 0, 1, 2, 0, 7⟩]
    (by decide) 0 (by decide)).2.1).2 ⟨1, by decide, by decide, by decide⟩

/-- Claim C5: an original particle with mother index 0 is emitted with parent
pair (1, 2); one with mother index m > 0 with pair (m + 2, 0); the two
synthesized photons always carry pair (0, 0). -/
theorem c5_parent_pairs (parts : List InPart) (hwf : WF parts) (i : Nat)
    (hi : i < parts.length) :
    processEvent parts = ([blockOf parts], none) ∧
    ((parts.getD i default).momI = 0 →
      ((blockOf parts).lines.getD (i + 2) default).mom1 = 1 ∧
      ((blockOf parts).lines.getD (i + 2) default).mom2 = 2) ∧
    (0 < (parts.getD i default).momI →
      ((blockOf parts).lines.getD (i + 2) default).mom1 =
        (parts.getD i default).momI + 2 ∧
      ((blockOf parts).lines.getD (i + 2) default).mom2 = 0) ∧
    ((blockOf parts).lines.getD 0 default).mom1 = 0 ∧
    ((blockOf parts).lines.getD 0 default).mom2 = 0 ∧
    ((blockOf parts).lines.getD 1 default).mom1 = 0 ∧
    ((blockOf parts).lines.getD 1 default).mom2 = 0 := by
  have hline := blockOf_lines_orig parts i hi
  have hmom := rel_momI parts 0 i hi
  have hpair0 : (parts.getD i default).momI = 0 →
      momS ((rel 0 parts).getD i default).status
        ((rel 0 parts).getD i default).momI = (1, 2) := by
    intro h0
    simp only [momS]
    rw [if_pos (rel_status_pos parts 0 i hi), hmom, if_pos h0]
  have hpairm : (parts.getD i default).momI ≠ 0 →
      momS ((rel 0 parts).getD i default).status
        ((rel 0 parts).getD i default).momI =
        ((parts.getD i default).momI + 2, 0) := by
    intro h0
    simp only [momS]
    rw [if_pos (rel_status_pos parts 0 i hi), hmom, if_neg h0]
  refine ⟨processEvent_eq parts hwf, ?_, ?_, ?_, ?_, ?_, ?_⟩
  · intro h0
    constructor
    · rw [hline]
      show (momS ((rel 0 parts).getD i default).status
        ((rel 0 parts).getD i default).momI).1 = 1
      rw [hpair0 h0]
    · rw [hline]
      show (momS ((rel 0 parts).getD i default).status
        ((rel 0 parts).getD i default).momI).2 = 2
      rw [hpair0 h0]
  · intro h0
    constructor
    · rw [hline]
      show (momS ((rel 0 parts).getD i default).status
        ((rel 0 parts).getD i default).momI).1 = _
      rw [hpairm (by omega)]
    · rw [hline]
      show (momS ((rel 0 parts).getD i default).status
        ((rel 0 parts).getD i default).momI).2 = 0
      rw [hpairm (by omega)]
  · rw [blockOf_lines_zero, emit_photon]
  · rw [blockOf_lines_zero, emit_photon]
  · rw [blockOf_lines_one, emit_photon]
  · rw [blockOf_lines_one, emit_photon]

/-- Claim C5, witness: first particle is top-level (pair (1, 2)); second has
mother index 1 (pair (3, 0)); the photon lines carry (0, 0). -/
theorem c5_parent_pairs_witness :
    (WF [⟨0, 443, 0, 0, 1, 4, 0, 1⟩, ⟨1, 11, 0, 0, 1, 2, 0, 1⟩] ∧
      1 < ([⟨0, 443, 0, 0, 1, 4, 0, 1⟩, ⟨1, 11, 0, 0, 1, 2, 0, 1⟩] : List InPart).length ∧
      0 < ([⟨0, 443, 0, 0, 1, 4, 0, 1⟩, ⟨1, 11, 0, 0, 1, 2, 0, 1⟩].getD 1
        (default : InPart)).momI) ∧
    (((blockOf [⟨0, 443, 0, 0, 1, 4, 0, 1⟩, ⟨1, 11, 0, 0, 1, 2, 0, 1⟩]).lines.getD (1 + 2)
        default).mom1 = 3 ∧
      ((blockOf [⟨0, 443, 0, 0, 1, 4, 0, 1⟩, ⟨1, 11, 0, 0, 1, 2, 0, 1⟩]).lines.getD 0
        default).mom1 = 0) := by
  refine ⟨⟨by decide, by decide, by decide⟩, ?_, ?_⟩
  · have h := ((c5_parent_pairs [⟨0, 443, 0, 0, 1, 4, 0, 1⟩, ⟨1, 11, 0, 0, 1, 2, 0, 1⟩]
      (by decide) 1 (by decide)).2.2.1 (by decide)).1
    rw [h]
    decide
  · exact (c5_parent_pairs [⟨0, 443, 0, 0, 1, 4, 0, 1⟩, ⟨1, 11, 0, 0, 1, 2, 0, 1⟩]
      (by decide) 1 (by decide)).2.2.2.1

/-- Claim C1, counterexample.  A single FINAL particle with momentum
(1, 0, 5, 3): the photon pair sums to (0, 0, 5, 5) while the FINAL total is
(1, 0, 5, 3) — the px component (nonzero transverse momentum is simply
dropped) and the energy component (T.energy < |T.pz|) both differ, so the
claimed component-wise conservation identity fails on the code. -/
theorem c1_counterexample :
    processEvent [⟨0, 11, 1, 0, 5, 3, 0, 1⟩] =
      ([blockOf [⟨0, 11, 1, 0, 5, 3, 0, 1⟩]], none) ∧
    ((blockOf [⟨0, 11, 1, 0, 5, 3, 0, 1⟩]).lines.getD 0 default).px +
        ((blockOf [⟨0, 11, 1, 0, 5, 3, 0, 1⟩]).lines.getD 1 default).px ≠
      sumPx (rel 0 [⟨0, 11, 1, 0, 5, 3, 0, 1⟩]) ∧
    ((blockOf [⟨0, 11, 1, 0, 5, 3, 0, 1⟩]).lines.getD 0 default).e +
        ((blockOf [⟨0, 11, 1, 0, 5, 3, 0, 1⟩]).lines.getD 1 default).e ≠
      plainE (rel 0 [⟨0, 11, 1, 0, 5, 3, 0, 1⟩]) := by
  refine ⟨processEvent_eq _ (by decide), ?_, ?_⟩
  · norm_num [blockOf, finishEvent, buildEvent, emit, photon, momS, rel, toP, childOf,
      sumPx, sumPz, rootE, plainE, finalsOf, List.filter, List.foldl, List.getD,
      List.get?]
  · norm_num [blockOf, finishEvent, buildEvent, emit, photon, momS, rel, toP, childOf,
      sumPx, sumPz, rootE, plainE, finalsOf, List.filter, List.foldl, List.getD,
      List.get?]

/-- Claim C1 as amended: the pz components always balance by construction;
full component-wise equality of the photon-pair sum with the FINAL total T
holds exactly when the input is physical enough for the construction —
every FINAL energy nonnegative (so the ROOT accumulator equals the plain
sum), vanishing transverse totals (the photons carry none), and
`|T.pz| ≤ T.energy` (so the two lightlike energies `|(T.pz ± T.energy)/2|`
add up to `T.energy`). -/
theorem c1_conservation_amended (parts : List InPart) (hwf : WF parts)
    (hpos : ∀ p ∈ finalsOf (rel 0 parts), 0 ≤ p.mom.e)
    (hx : sumPx (rel 0 parts) = 0) (hy : sumPy (rel 0 parts) = 0)
    (hz : |sumPz (rel 0 parts)| ≤ plainE (rel 0 parts)) :
    processEvent parts = ([blockOf parts], none) ∧
    ((blockOf parts).lines.getD 0 default).px +
        ((blockOf parts).lines.getD 1 default).px = sumPx (rel 0 parts) ∧
    ((blockOf parts).lines.getD 0 default).py +
        ((blockOf parts).lines.getD 1 default).py = sumPy (rel 0 parts) ∧
    ((blockOf parts).lines.getD 0 default).pz +
        ((blockOf parts).lines.getD 1 default).pz = sumPz (rel 0 parts) ∧
    ((blockOf parts).lines.getD 0 default).e +
        ((blockOf parts).lines.getD 1 default).e = plainE (rel 0 parts) := by
  have hre := rootE_eq_plainE (rel 0 parts) hpos
  have habs := abs_le.mp hz
  refine ⟨processEvent_eq parts hwf, ?_, ?_, ?_, ?_⟩
  · simp only [blockOf_lines_zero, blockOf_lines_one, emit_photon]
    rw [hx]
    norm_num
  · simp only [blockOf_lines_zero, blockOf_lines_one, emit_photon]
    rw [hy]
    norm_num
  · simp only [blockOf_lines_zero, blockOf_lines_one, emit_photon]
    ring
  · simp only [blockOf_lines_zero, blockOf_lines_one, emit_photon]
    rw [hre]
    rw [abs_of_nonpos (by linarith), abs_of_nonneg (by linarith)]
    ring

/-- Claim C1 amended, witness at a physical single-particle event. -/
theorem c1_conservation_amended_witness :
    (WF [⟨0, 13, 0, 0, 4, 5, 0, 1⟩] ∧
      (∀ p ∈ finalsOf (rel 0 [⟨0, 13, 0, 0, 4, 5, 0, 1⟩]), 0 ≤ p.mom.e) ∧
      sumPx (rel 0 [⟨0, 13, 0, 0, 4, 5, 0, 1⟩]) = 0 ∧
      sumPy (rel 0 [⟨0, 13, 0, 0, 4, 5, 0, 1⟩]) = 0 ∧
      |sumPz (rel 0 [⟨0, 13, 0, 0, 4, 5, 0, 1⟩])| ≤
        plainE (rel 0 [⟨0, 13, 0, 0, 4, 5, 0, 1⟩])) ∧
    ((blockOf [⟨0, 13, 0, 0, 4, 5, 0, 1⟩]).lines.getD 0 default).pz +
        ((blockOf [⟨0, 13, 0, 0, 4, 5, 0, 1⟩]).lines.getD 1 default).pz =
      sumPz (rel 0 [⟨0, 13, 0, 0, 4, 5, 0, 1⟩]) := by
  refine ⟨⟨by decide, by decide, ?_, ?_, ?_⟩, ?_⟩
  · norm_num [sumPx, rel, toP, childOf, finalsOf, List.filter, List.foldl]
  · norm_num [sumPy, rel, toP, childOf, finalsOf, List.filter, List.foldl]
  · have ha : |(4 : ℚ)| = 4 := abs_of_nonneg (by norm_num)
    norm_num [sumPz, plainE, rel, toP, childOf, finalsOf, List.filter, List.foldl, ha]
  · exact (c1_conservation_amended [⟨0, 13, 0, 0, 4, 5, 0, 1⟩] (by decide) (by decide)
      (by norm_num [sumPx, rel, toP, childOf, finalsOf, List.filter, List.foldl])
      (by norm_num [sumPy, rel, toP, childOf, finalsOf, List.filter, List.foldl])
      (by
        have ha : |(4 : ℚ)| = 4 := abs_of_nonneg (by norm_num)
        norm_num [sumPz, plainE, rel, toP, childOf, finalsOf, List.filter,
          List.foldl, ha])).2.2.2.1

/-- Claim C10, witness: the second particle declares parent index `-1` and is
emitted with parent pair `(1, 0)`. -/
theorem c10_negative_parent_witness :
    (WF [⟨0, 11, 0, 0, 1, 1, 0, 1⟩, ⟨-1, 22, 0, 0, 1, 1, 0, 1⟩] ∧
      ([⟨0, 11, 0, 0, 1, 1, 0, 1⟩, ⟨-1, 22, 0, 0, 1, 1, 0, 1⟩].getD 1
        (default : InPart)).momI < 0) ∧
    ((blockOf [⟨0, 11, 0, 0, 1, 1, 0, 1⟩, ⟨-1, 22, 0, 0, 1, 1, 0, 1⟩]).lines.getD 3
      default).mom1 = 1 := by
  refine ⟨⟨by decide, by decide⟩, ?_⟩
  have h := (c10_negative_parent [⟨0, 11, 0, 0, 1, 1, 0, 1⟩, ⟨-1, 22, 0, 0, 1, 1, 0, 1⟩]
    (by decide) 1 (by decide) (by decide)).2.2.2.2 (by decide)
  exact h

/-- Claim C6: a well-formed input of N events with declared particle counts
k₁…kₙ yields exactly N `<event>` blocks, block i both declaring (first
line) and containing kᵢ + 2 particle lines. -/
theorem c6_block_counts (evs : List (Int × Int × List InPart))
    (hwf : ∀ e ∈ evs, WF e.2.2) :
    convert_UGHEPMC2LHE (renderEvents evs) =
      (evs.map (fun e => blockOf e.2.2), none) ∧
    (evs.map (fun e => blockOf e.2.2)).length = evs.length ∧
    ∀ e ∈ evs, (blockOf e.2.2).count = e.2.2.length + 2 ∧
      (blockOf e.2.2).lines.length = e.2.2.length + 2 := by
  refine ⟨convertEvents_eq evs hwf, by simp, ?_⟩
  intro e _
  constructor
  · show (buildEvent (rel 0 e.2.2)).length = _
    simp only [buildEvent, List.length_cons, rel_length]
  · show ((buildEvent (rel 0 e.2.2)).map emit).length = _
    simp only [buildEvent, List.map_cons, List.length_cons, List.length_map, rel_length]

/-- Claim C6, witness: a one-particle event followed by an empty event yield
two blocks of declared sizes 3 and 2. -/
theorem c6_block_counts_witness :
    (∀ e ∈ ([(1, 0, [⟨0, 11, 0, 0, 1, 2, 0, 1⟩]), (2, 0, ([] : List InPart))] :
      List (Int × Int × List InPart)), WF e.2.2) ∧
    convert_UGHEPMC2LHE
        (renderEvents [(1, 0, [⟨0, 11, 0, 0, 1, 2, 0, 1⟩]), (2, 0, [])]) =
      ([blockOf [⟨0, 11, 0, 0, 1, 2, 0, 1⟩], blockOf []], none) ∧
    (blockOf ([⟨0, 11, 0, 0, 1, 2, 0, 1⟩] : List InPart)).count = 3 ∧
    (blockOf ([] : List InPart)).count = 2 := by
  have h := c6_block_counts [(1, 0, [⟨0, 11, 0, 0, 1, 2, 0, 1⟩]), (2, 0, [])] (by decide)
  refine ⟨by decide, by simpa using h.1, ?_, ?_⟩
  · exact (h.2.2 (1, 0, [⟨0, 11, 0, 0, 1, 2, 0, 1⟩]) (by simp)).1
  · exact (h.2.2 (2, 0, []) (by simp)).1

/-- Claim C7: a `P` line whose declared position index differs from its
1-based sequence position, or whose parent index is at least its own
position, aborts the run with the track-line parse error; the output holds
exactly the blocks of the events completed before it, so nothing of the
offending particle (or its event) is written. -/
theorem c7_bad_track_aborts (evs : List (Int × Int × List InPart))
    (hevs : ∀ e ∈ evs, WF e.2.2) (i v nPar : Int) (pre : List InPart)
    (hn : (pre.length : Int) < nPar % (2 ^ 64 : Int))
    (hpreLen : pre.length < 2 ^ 31)
    (hpre : wfFrom 0 pre = true)
    (parI momI pdgId : Int) (px py pz en mass : ℚ) (st : Int)
    (hparI : parI.natAbs < 2 ^ 31)
    (hbad : parI ≠ (pre.length : Int) + 1 ∨ (pre.length : Int) + 1 ≤ momI)
    (suffix : List Line) :
    convert_UGHEPMC2LHE (renderEvents evs ++ Line.eline i v nPar :: Line.uline ::
        (renderParts 0 pre ++
          Line.pline parI momI pdgId px py pz en mass st :: suffix)) =
      (evs.map (fun e => blockOf e.2.2), some Err.trackLine) := by
  unfold convert_UGHEPMC2LHE
  rw [runLines_events evs hevs]
  have hmodpos : (0 : Int) ≤ nPar % (2 ^ 64 : Int) := Int.emod_nonneg _ (by norm_num)
  have hmodlt : nPar % (2 ^ 64 : Int) < 2 ^ 64 := Int.emod_lt_of_pos _ (by norm_num)
  have e1 : runLines (Line.eline i v nPar :: Line.uline ::
      (renderParts 0 pre ++ Line.pline parI momI pdgId px py pz en mass st :: suffix))
      PState.expectEvent ((evs.map (fun e => blockOf e.2.2)).reverse ++ []) =
      runLines (Line.uline ::
        (renderParts 0 pre ++ Line.pline parI momI pdgId px py pz en mass st :: suffix))
        (PState.expectU ((nPar % (2 ^ 64 : Int)).toNat))
        ((evs.map (fun e => blockOf e.2.2)).reverse ++ []) := rfl
  rw [e1]
  have e2 : runLines (Line.uline ::
      (renderParts 0 pre ++ Line.pline parI momI pdgId px py pz en mass st :: suffix))
      (PState.expectU ((nPar % (2 ^ 64 : Int)).toNat))
      ((evs.map (fun e => blockOf e.2.2)).reverse ++ []) =
      runLines
        (renderParts 0 pre ++ Line.pline parI momI pdgId px py pz en mass st :: suffix)
        (PState.expectP ((nPar % (2 ^ 64 : Int)).toNat) [])
        ((evs.map (fun e => blockOf e.2.2)).reverse ++ []) := by
    simp only [runLines]
    rw [if_neg (by omega)]
  rw [e2]
  obtain ⟨cur2, hlen2, e3⟩ := runLines_midEvent pre [] ((nPar % (2 ^ 64 : Int)).toNat)
    ((evs.map (fun e => blockOf e.2.2)).reverse ++ [])
    (Line.pline parI momI pdgId px py pz en mass st :: suffix)
    (by omega)
    (by simp only [List.length_nil, Nat.zero_add]; omega)
    hpre
  simp only [List.length_nil, Nat.zero_add] at hlen2 e3
  rw [e3]
  have hfail : stepP cur2 parI momI pdgId ⟨px, py, pz, en⟩ = none := by
    unfold stepP
    rw [if_neg]
    rintro ⟨he, hm⟩
    rw [hlen2] at he
    rcases hbad with hb | hb <;> omega
  rw [runLines_pline_fail suffix _ _ hfail]
  simp

/-- Claim C7, witness: after one good event, a second event's first particle
line declares position 5 instead of 1; the run aborts with the track error
and the output holds only the first event's block. -/
theorem c7_bad_track_aborts_witness :
    ((∀ e ∈ ([(1, 0, [⟨0, 11, 0, 0, 1, 2, 0, 1⟩])] : List (Int × Int × List InPart)),
        WF e.2.2) ∧
      ((([] : List InPart).length : Int) < (3 : Int) % (2 ^ 64 : Int)) ∧
      ([] : List InPart).length < 2 ^ 31 ∧
      wfFrom 0 ([] : List InPart) = true ∧
      (5 : Int).natAbs < 2 ^ 31 ∧
      ((5 : Int) ≠ ((([] : List InPart).length : Int)) + 1 ∨
        ((([] : List InPart).length : Int)) + 1 ≤ (0 : Int))) ∧
    convert_UGHEPMC2LHE (renderEvents [(1, 0, [⟨0, 11, 0, 0, 1, 2, 0, 1⟩])] ++
        Line.eline 2 0 3 :: Line.uline ::
        (renderParts 0 ([] : List InPart) ++ Line.pline 5 0 11 0 0 0 1 0 1 :: [])) =
      ([blockOf [⟨0, 11, 0, 0, 1, 2, 0, 1⟩]], some Err.trackLine) := by
  refine ⟨⟨by decide, by decide, by decide, by decide, by decide, by decide⟩, ?_⟩
  have h := c7_bad_track_aborts [(1, 0, [⟨0, 11, 0, 0, 1, 2, 0, 1⟩])] (by decide)
    2 0 3 [] (by decide) (by decide) (by decide) 5 0 11 0 0 0 1 0 1 (by decide)
    (Or.inl (by decide)) []
  simpa using h

/-- Claim C8, counterexample: a stray particle line arriving while the parser
expects an event header is silently skipped (`continue`), and the run then
completes with no error — it does not move to a failed state, contradicting
the claim that every non-header, non-marker line aborts the conversion. -/
theorem c8_counterexample :
    convert_UGHEPMC2LHE [Line.pline 1 0 11 0 0 0 1 0 1] = ([], none) := rfl

/-- Claim C8 as amended: in the expect-event state only a line starting with
`"E "` that fails to parse as an event header aborts the run; a line
containing the end marker ends the conversion; every other line — units
lines, surplus particle lines, arbitrary junk — is silently skipped. -/
theorem c8_skip_amended (l : Line) (rest : List Line) (acc : List OutEvent) :
    (l = Line.badE →
      runLines (l :: rest) PState.expectEvent acc =
        (acc.reverse, some Err.eventLine)) ∧
    (startsWithESpace l = false → l ≠ Line.endMarker →
      runLines (l :: rest) PState.expectEvent acc =
        runLines rest PState.expectEvent acc) := by
  constructor
  · rintro rfl
    rfl
  · intro h1 h2
    cases l with
    | eline p1 p2 p3 => simp [startsWithESpace] at h1
    | uline => rfl
    | pline p1 p2 p3 p4 p5 p6 p7 p8 p9 => rfl
    | endMarker => exact absurd rfl h2
    | badE => simp [startsWithESpace] at h1
    | junk => rfl

/-- Claim C8 amended, witness: a malformed header line aborts with the
event-line error; a stray particle line is skipped. -/
theorem c8_skip_amended_witness :
    runLines [Line.badE] PState.expectEvent [] = ([], some Err.eventLine) ∧
    (startsWithESpace (Line.pline 1 0 11 0 0 0 1 0 1) = false ∧
      runLines [Line.pline 1 0 11 0 0 0 1 0 1] PState.expectEvent [] =
        runLines [] PState.expectEvent []) :=
  ⟨(c8_skip_amended Line.badE [] []).1 rfl,
    by decide,
    (c8_skip_amended (Line.pline 1 0 11 0 0 0 1 0 1) [] []).2 (by decide) (by decide)⟩

end UPC
